import Mathlib

/-!
Verification of libusb-gadget: byte-order macros, the loopback example and the intrusive
list.

A shallow embedding of

* `src/usb-gadget.h`: the macros `usg_bswap16`, `usg_bswap32`, `usg_cpu_to_le16`,
  `usg_le16_to_cpu`, `usg_cpu_to_le32`, `usg_le32_to_cpu`, expanded token by token the
  way the C preprocessor does and evaluated with C operator precedence;
* `tests/loopback.c`: the descriptors, the worker loop `loopback_loop` and the event
  callback `loopback_event_cb`;
* `src/list.h`: the intrusive doubly linked list over an explicit heap.
-/

namespace Usg

/-! ## Definitions: `usb-gadget.h`, byte-order macros -/

/-- Binary operators occurring in the byte-order macros of `usb-gadget.h`. -/
inductive BinOp where
  | bor
  | band
  | shl
  | shr
  deriving DecidableEq, Repr

/-- C precedence of the operators: the shifts bind tighter than `&`, which binds tighter
than `|`. -/
def BinOp.prec : BinOp → Nat
  | .bor => 1
  | .band => 3
  | .shl => 5
  | .shr => 5

/-- Unsigned 32-bit arithmetic: only the left shift can leave the 32-bit range. -/
def BinOp.apply : BinOp → Nat → Nat → Nat
  | .bor, a, b => a ||| b
  | .band, a, b => a &&& b
  | .shl, a, b => (a <<< b) % 2 ^ 32
  | .shr, a, b => a >>> b

/-- Preprocessor tokens of the macro bodies; `num` is a constant or a variable that holds
the given value. -/
inductive Tok where
  | num (n : Nat)
  | op (o : BinOp)
  | lparen
  | rparen
  deriving DecidableEq, Repr

/-- Pending operators of the evaluator; `none` marks an open parenthesis. -/
abbrev OpStack := List (Option BinOp)

/-- Apply the pending operators of precedence at least `p` (all four operators are left
associative). -/
def reduceOps (p : Nat) : OpStack → List Nat → Option (OpStack × List Nat)
  | some o :: ops, b :: a :: vals =>
      if p ≤ o.prec then reduceOps p ops (o.apply a b :: vals)
      else some (some o :: ops, b :: a :: vals)
  | some _ :: _, _ => none
  | ops, vals => some (ops, vals)

/-- Close a parenthesis: apply the pending operators down to the matching `(`. -/
def closeParen : OpStack → List Nat → Option (OpStack × List Nat)
  | some o :: ops, b :: a :: vals => closeParen ops (o.apply a b :: vals)
  | some _ :: _, _ => none
  | none :: ops, vals => some (ops, vals)
  | [], _ => none

/-- Apply every pending operator at the end of the expression. -/
def finish : OpStack → List Nat → Option Nat
  | some o :: ops, b :: a :: vals => finish ops (o.apply a b :: vals)
  | [], [v] => some v
  | _, _ => none

/-- Operator-precedence evaluation of a token sequence. -/
def evalToks : List Tok → OpStack → List Nat → Option Nat
  | [], ops, vals => finish ops vals
  | .num n :: ts, ops, vals => evalToks ts ops (n :: vals)
  | .lparen :: ts, ops, vals => evalToks ts (none :: ops) vals
  | .rparen :: ts, ops, vals =>
      match closeParen ops vals with
      | some (ops1, vals1) => evalToks ts ops1 vals1
      | none => none
  | .op o :: ts, ops, vals =>
      match reduceOps o.prec ops vals with
      | some (ops1, vals1) => evalToks ts (some o :: ops1) vals1
      | none => none

/-- Value of a C expression given as its token sequence; `none` when it is malformed. -/
def cEval (ts : List Tok) : Option Nat := evalToks ts [] []

/-- The branch of `#if __BYTE_ORDER == ...` taken by the compiler. -/
inductive ByteOrder where
  | little
  | big
  deriving DecidableEq, Repr

open Tok in
/-- Macro `#define usg_bswap16(x) (((x & 0xFF) << 8) | (x >> 8))`: the argument text `x` is
pasted twice, without parentheses of its own. -/
def usg_bswap16 (x : List Tok) : List Tok :=
  [lparen, lparen, lparen] ++ x ++ [op .band, num 0xFF, rparen, op .shl, num 8, rparen,
    op .bor, lparen] ++ x ++ [op .shr, num 8, rparen, rparen]

open Tok in
/-- Macro `#define usg_bswap32(x) ((usg_bswap16(x & 0xFFFF) << 16) | usg_bswap16(x >> 16))` -/
def usg_bswap32 (x : List Tok) : List Tok :=
  [lparen, lparen] ++ usg_bswap16 (x ++ [op .band, num 0xFFFF]) ++
    [op .shl, num 16, rparen, op .bor] ++ usg_bswap16 (x ++ [op .shr, num 16]) ++ [rparen]

open Tok in
/-- Macro `#define usg_cpu_to_le16(x) (x)` on little-endian hosts, `usg_bswap16(x)` on
big-endian hosts. -/
def usg_cpu_to_le16 (bo : ByteOrder) (x : List Tok) : List Tok :=
  match bo with
  | .little => [lparen] ++ x ++ [rparen]
  | .big => usg_bswap16 x

open Tok in
/-- Macro `#define usg_le16_to_cpu(x) (x)` on little-endian hosts, `usg_bswap16(x)` on
big-endian hosts. -/
def usg_le16_to_cpu (bo : ByteOrder) (x : List Tok) : List Tok :=
  match bo with
  | .little => [lparen] ++ x ++ [rparen]
  | .big => usg_bswap16 x

open Tok in
/-- Macro `#define usg_cpu_to_le32(x) (x)` on little-endian hosts, `usg_bswap32(x)` on
big-endian hosts. -/
def usg_cpu_to_le32 (bo : ByteOrder) (x : List Tok) : List Tok :=
  match bo with
  | .little => [lparen] ++ x ++ [rparen]
  | .big => usg_bswap32 x

open Tok in
/-- Macro `#define usg_le32_to_cpu(x) (x)` on little-endian hosts, `usg_bswap32(x)` on
big-endian hosts. -/
def usg_le32_to_cpu (bo : ByteOrder) (x : List Tok) : List Tok :=
  match bo with
  | .little => [lparen] ++ x ++ [rparen]
  | .big => usg_bswap32 x

/-- The 16-bit value whose high byte is the low byte of `x` and conversely. -/
def swapBytes16 (x : Nat) : Nat := (x % 256) * 256 + x / 256

/-- The 32-bit value whose four bytes are those of `x` in reverse order. -/
def reverseBytes32 (x : Nat) : Nat :=
  (x % 256) * 2 ^ 24 + (x / 2 ^ 8 % 256) * 2 ^ 16 + (x / 2 ^ 16 % 256) * 2 ^ 8 + x / 2 ^ 24

/-- The two bytes a 16-bit field that holds the value `v` occupies in the memory of a host
of the given byte order, lowest address first. -/
def hostBytes16 (bo : ByteOrder) (v : Nat) : List Nat :=
  match bo with
  | .little => [v % 256, v / 256 % 256]
  | .big => [v / 256 % 256, v % 256]

/-- The little-endian (USB wire order) encoding of a 16-bit value: low byte first. -/
def wireBytes16 (v : Nat) : List Nat := [v % 256, v / 256 % 256]

/-! ## Definitions: `tests/loopback.c`, descriptors -/

def STRING_MANUFACTURER : Nat := 25
def STRING_PRODUCT : Nat := 45
def STRING_SERIAL : Nat := 101
def STRING_LOOPBACK : Nat := 250

/-- Record `struct usg_string`. -/
structure usg_string where
  id : Nat
  s : String
  deriving DecidableEq, Repr

/-- Table `static struct usg_string strings[]`. -/
def strings : List usg_string :=
  [⟨STRING_MANUFACTURER, "The manufacturer"⟩,
   ⟨STRING_PRODUCT, "The product"⟩,
   ⟨STRING_SERIAL, "0123456789.0123456789.0123456789"⟩,
   ⟨STRING_LOOPBACK, "The loopback"⟩]

/-- The id under which a text is registered in the string table. -/
def stringId (text : String) : Option Nat :=
  (strings.find? (fun e => e.s == text)).map (fun e => e.id)

/-! Constants of `<linux/usb/ch9.h>`. -/

def USB_DT_DEVICE : Nat := 1
def USB_DT_ENDPOINT : Nat := 5
def USB_DT_DEVICE_SIZE : Nat := 18
def USB_DT_ENDPOINT_SIZE : Nat := 7
def USB_CLASS_VENDOR_SPEC : Nat := 0xff
def USB_DIR_OUT : Nat := 0
def USB_DIR_IN : Nat := 0x80
def USB_ENDPOINT_XFER_BULK : Nat := 2
def USB_ENDPOINT_NUMBER_MASK : Nat := 0x0f

/-- Record `struct usb_device_descriptor` of `<linux/usb/ch9.h>`: `bcdUSB`, `idVendor`,
`idProduct` and `bcdDevice` are `__le16`, every other field is `__u8`. -/
structure usb_device_descriptor where
  bLength : Nat
  bDescriptorType : Nat
  bcdUSB : Nat
  bDeviceClass : Nat
  bDeviceSubClass : Nat
  bDeviceProtocol : Nat
  bMaxPacketSize0 : Nat
  idVendor : Nat
  idProduct : Nat
  bcdDevice : Nat
  iManufacturer : Nat
  iProduct : Nat
  iSerialNumber : Nat
  bNumConfigurations : Nat
  deriving DecidableEq, Repr

/-- Record `struct usb_endpoint_descriptor` of `<linux/usb/ch9.h>`: `wMaxPacketSize` is `__le16`,
the other fields are `__u8`. -/
structure usb_endpoint_descriptor where
  bLength : Nat
  bDescriptorType : Nat
  bEndpointAddress : Nat
  bmAttributes : Nat
  wMaxPacketSize : Nat
  bInterval : Nat
  deriving DecidableEq, Repr

/-- Store into a `__u8` field. -/
def store8 (v : Nat) : Nat := v % 2 ^ 8

/-- Store into a `__le16` field. -/
def store16 (v : Nat) : Nat := v % 2 ^ 16

/-- Initializer `static struct usb_device_descriptor loopback_device_descriptor`; the fields
the initializer does not name are zero. -/
def loopback_device_descriptor (bo : ByteOrder) : Option usb_device_descriptor := do
  let bcdUSB ← cEval (usg_cpu_to_le16 bo [.num 0x0200])
  let iManufacturer ← cEval (usg_cpu_to_le16 bo [.num STRING_MANUFACTURER])
  let iProduct ← cEval (usg_cpu_to_le16 bo [.num STRING_PRODUCT])
  let iSerialNumber ← cEval (usg_cpu_to_le16 bo [.num STRING_SERIAL])
  pure {
    bLength := store8 USB_DT_DEVICE_SIZE
    bDescriptorType := store8 USB_DT_DEVICE
    bcdUSB := store16 bcdUSB
    bDeviceClass := store8 USB_CLASS_VENDOR_SPEC
    bDeviceSubClass := 0
    bDeviceProtocol := 0
    bMaxPacketSize0 := 0
    idVendor := 0
    idProduct := 0
    bcdDevice := 0
    iManufacturer := store8 iManufacturer
    iProduct := store8 iProduct
    iSerialNumber := store8 iSerialNumber
    bNumConfigurations := store8 1 }

/-- The endpoint descriptors of `loopback.c` differ in the address and the packet size
only. -/
def endpointDescriptor (bo : ByteOrder) (address packet : Nat) :
    Option usb_endpoint_descriptor := do
  let w ← cEval (usg_cpu_to_le16 bo [.num packet])
  pure {
    bLength := store8 USB_DT_ENDPOINT_SIZE
    bDescriptorType := store8 USB_DT_ENDPOINT
    bEndpointAddress := store8 address
    bmAttributes := store8 USB_ENDPOINT_XFER_BULK
    wMaxPacketSize := store16 w
    bInterval := 0 }

/-- Descriptor `loopback_ep_in_descriptor`: `USB_DIR_IN | 7`, `usg_cpu_to_le16(64)`. -/
def loopback_ep_in_descriptor (bo : ByteOrder) : Option usb_endpoint_descriptor :=
  endpointDescriptor bo (USB_DIR_IN ||| 7) 64

/-- Descriptor `loopback_ep_out_descriptor`: `USB_DIR_OUT | 3`, `usg_cpu_to_le16(64)`. -/
def loopback_ep_out_descriptor (bo : ByteOrder) : Option usb_endpoint_descriptor :=
  endpointDescriptor bo (USB_DIR_OUT ||| 3) 64

/-- Descriptor `loopback_hs_ep_in_descriptor`: `USB_DIR_IN | 7`, `usg_cpu_to_le16(512)`. -/
def loopback_hs_ep_in_descriptor (bo : ByteOrder) : Option usb_endpoint_descriptor :=
  endpointDescriptor bo (USB_DIR_IN ||| 7) 512

/-- Descriptor `loopback_hs_ep_out_descriptor`: `USB_DIR_OUT | 3`, `usg_cpu_to_le16(512)`. -/
def loopback_hs_ep_out_descriptor (bo : ByteOrder) : Option usb_endpoint_descriptor :=
  endpointDescriptor bo (USB_DIR_OUT ||| 3) 512

/-- The device descriptor `main` hands to `usg_open`:
`loopback_device_descriptor.idVendor = vendor_id;`
`loopback_device_descriptor.idProduct = product_id;` -/
def main_device_descriptor (bo : ByteOrder) (vendor_id product_id : Nat) :
    Option usb_device_descriptor :=
  (loopback_device_descriptor bo).map fun d =>
    { d with idVendor := store16 vendor_id, idProduct := store16 product_id }

/-! ## Definitions: `tests/loopback.c`, the worker loop -/

/-- Body of the `for` loop of `loopback_loop`:
`c = buf[i]; buf[i] = buf[ret - i - 1]; buf[ret - i - 1] = c;` -/
def swapBody {α : Type} [Inhabited α] (ret : Nat) (buf : List α) (i : Nat) : List α :=
  let c := buf.getD i default
  let buf1 := buf.set i (buf.getD (ret - i - 1) default)
  buf1.set (ret - i - 1) c

/-- Loop `for (i = 0; i < ret / 2; i++)` of `loopback_loop`, run on the buffer. -/
def reverseLoop {α : Type} [Inhabited α] (ret : Nat) (buf : List α) : List α :=
  (List.range (ret / 2)).foldl (swapBody ret) buf

/-- One iteration of the `while (1)` loop of `loopback_loop`, after
`ret = usg_endpoint_read (loopback_ep_out, buf, 64, 100)` has filled `buf`: `none` when
`ret < 0` (the loop is left before any write), otherwise the `ret` bytes that
`usg_endpoint_write (loopback_ep_in, buf, ret, 100)` is given. -/
def loopback_iteration {α : Type} [Inhabited α] (buf : List α) (ret : Int) :
    Option (List α) :=
  if ret < 0 then none
  else some ((reverseLoop ret.toNat buf).take ret.toNat)

/-! ## Definitions: `tests/loopback.c`, the event callback -/

/-- Enumeration `enum usg_event_type` of `usb-gadget.h`. -/
inductive usg_event_type where
  | USG_EVENT_ENDPOINT_ENABLE
  | USG_EVENT_ENDPOINT_DISABLE
  | USG_EVENT_CONNECT
  | USG_EVENT_DISCONNECT
  | USG_EVENT_SUSPEND
  deriving DecidableEq, Repr

/-- Record `struct usg_event` of `usb-gadget.h`: the tag and `u.number`. -/
structure usg_event where
  type : usg_event_type
  number : Int
  deriving DecidableEq, Repr

/-- What the callback asks of the thread library. -/
inductive Action where
  | start (thread : Nat)
  | cancel (thread : Nat)
  deriving DecidableEq, Repr

/-- The file-scope variables `loopback_ep_in`, `loopback_ep_out` (`none` is `NULL`) and
`loopback_thread` (`none` is the zero value of static storage); `created` counts the
workers created so far and names the next one. -/
structure LoopbackState where
  loopback_ep_in : Option Nat
  loopback_ep_out : Option Nat
  loopback_thread : Option Nat
  created : Nat
  deriving DecidableEq, Repr

/-- State at program start. -/
def LoopbackState.init : LoopbackState := ⟨none, none, none, 0⟩

/-- Outcome of the library calls made by the callback: the result of
`usg_endpoint (handle, number)` (`none` is `NULL`), and whether `pthread_create` succeeds. -/
structure Env where
  usg_endpoint : Int → Option Nat
  pthread_create_ok : Bool

/-- Expression `loopback_ep_in_descriptor.bEndpointAddress & USB_ENDPOINT_NUMBER_MASK`. -/
def ep_in_number : Int := ((store8 (USB_DIR_IN ||| 7) &&& USB_ENDPOINT_NUMBER_MASK : Nat) : Int)

/-- Expression `loopback_ep_out_descriptor.bEndpointAddress & USB_ENDPOINT_NUMBER_MASK`. -/
def ep_out_number : Int := ((store8 (USB_DIR_OUT ||| 3) &&& USB_ENDPOINT_NUMBER_MASK : Nat) : Int)

/-- Statements under `case USG_EVENT_DISCONNECT:`
`if (loopback_thread) pthread_cancel (loopback_thread); break;` -/
def disconnectCase (s : LoopbackState) : LoopbackState × List Action :=
  match s.loopback_thread with
  | some t => (s, [.cancel t])
  | none => (s, [])

/-- Function `loopback_event_cb`: the new values of the file-scope variables and the
requests made to the thread library, in order. -/
def loopback_event_cb (env : Env) (s : LoopbackState) (event : usg_event) :
    LoopbackState × List Action :=
  match event.type with
  | .USG_EVENT_ENDPOINT_ENABLE =>
      let s1 :=
        if event.number = ep_in_number then
          { s with loopback_ep_in := env.usg_endpoint event.number }
        else if event.number = ep_out_number then
          { s with loopback_ep_out := env.usg_endpoint event.number }
        else s
      if s1.loopback_ep_in = none ∨ s1.loopback_ep_out = none then (s1, [])
      else if env.pthread_create_ok then
        ({ s1 with loopback_thread := some (s1.created + 1), created := s1.created + 1 },
          [.start (s1.created + 1)])
      else (s1, [])
  | .USG_EVENT_ENDPOINT_DISABLE =>
      let s1 :=
        if event.number = ep_in_number then { s with loopback_ep_in := none }
        else if event.number = ep_out_number then { s with loopback_ep_out := none }
        else s
      disconnectCase s1
  | .USG_EVENT_DISCONNECT => disconnectCase s
  | .USG_EVENT_CONNECT => (s, [])
  | .USG_EVENT_SUSPEND => (s, [])

/-- An environment in which `usg_endpoint` and `pthread_create` always succeed; the handle
of endpoint `n` is written `n`. -/
def Env.succeeding : Env := ⟨fun n => some n.toNat, true⟩

def ENDPOINT_ENABLE (n : Int) : usg_event := ⟨.USG_EVENT_ENDPOINT_ENABLE, n⟩
def ENDPOINT_DISABLE (n : Int) : usg_event := ⟨.USG_EVENT_ENDPOINT_DISABLE, n⟩
def CONNECT : usg_event := ⟨.USG_EVENT_CONNECT, 0⟩
def DISCONNECT : usg_event := ⟨.USG_EVENT_DISCONNECT, 0⟩
def SUSPEND : usg_event := ⟨.USG_EVENT_SUSPEND, 0⟩

/-- The callback run on a sequence of events: the final state and all requests made. -/
def runEvents (env : Env) : LoopbackState → List usg_event → LoopbackState × List Action
  | s, [] => (s, [])
  | s, e :: es =>
      let r := loopback_event_cb env s e
      let rs := runEvents env r.1 es
      (rs.1, r.2 ++ rs.2)

/-- Whether no worker is started while an earlier one is live, that is, started and not
asked to cancel since; `live` lists the live workers before the requests. -/
def startsOnlyWhenIdle : List Nat → List Action → Bool
  | _, [] => true
  | live, .start t :: rest => live.isEmpty && startsOnlyWhenIdle (t :: live) rest
  | live, .cancel t :: rest => startsOnlyWhenIdle (live.filter (fun u => u != t)) rest

/-- Whether every `ENDPOINT_ENABLE(n)` of the sequence is for endpoint 7 or 3 and finds
that endpoint disabled, where `ENDPOINT_ENABLE(n)` enables and only `ENDPOINT_DISABLE(n)`
disables; `in7` and `in3` tell which of the two are enabled before the sequence. -/
def enablesFollowDisables : Bool → Bool → List usg_event → Bool
  | _, _, [] => true
  | in7, in3, e :: es =>
      match e.type with
      | .USG_EVENT_ENDPOINT_ENABLE =>
          if e.number = 7 then !in7 && enablesFollowDisables true in3 es
          else if e.number = 3 then !in3 && enablesFollowDisables in7 true es
          else false
      | .USG_EVENT_ENDPOINT_DISABLE =>
          if e.number = 7 then enablesFollowDisables false in3 es
          else if e.number = 3 then enablesFollowDisables in7 false es
          else enablesFollowDisables in7 in3 es
      | _ => enablesFollowDisables in7 in3 es

/-! ## Definitions: `src/list.h` -/

/-- The `next` and `prev` fields of every `struct usg_list_head`, by address. -/
structure Heap where
  next : Nat → Nat
  prev : Nat → Nat

/-- Assignment `p->next = v`. -/
def Heap.setNext (h : Heap) (p v : Nat) : Heap :=
  { h with next := fun q => if q = p then v else h.next q }

/-- Assignment `p->prev = v`. -/
def Heap.setPrev (h : Heap) (p v : Nat) : Heap :=
  { h with prev := fun q => if q = p then v else h.prev q }

/-- Function `usg_init_list_head`: `list->next = list; list->prev = list;` -/
def usg_init_list_head (h : Heap) (list : Nat) : Heap :=
  (h.setNext list list).setPrev list list

/-- Function `__usg_list_add`:
`next->prev = new; new->next = next; new->prev = prev; prev->next = new;` -/
def __usg_list_add (h : Heap) (new prev next : Nat) : Heap :=
  (((h.setPrev next new).setNext new next).setPrev new prev).setNext prev new

/-- Function `usg_list_add`: `__usg_list_add (new, head, head->next);` -/
def usg_list_add (h : Heap) (new head : Nat) : Heap :=
  __usg_list_add h new head (h.next head)

/-- Function `usg_list_add_tail`: `__usg_list_add (new, head->prev, head);` -/
def usg_list_add_tail (h : Heap) (new head : Nat) : Heap :=
  __usg_list_add h new (h.prev head) head

/-- Function `usg_list_del`:
`head->next->prev = head->prev; head->prev->next = head->next;`, the second statement
reading the heap the first one wrote. -/
def usg_list_del (h : Heap) (head : Nat) : Heap :=
  let h1 := h.setPrev (h.next head) (h.prev head)
  h1.setNext (h1.prev head) (h1.next head)

/-- Function `usg_list_empty`: `return head->next == head;` -/
def usg_list_empty (h : Heap) (head : Nat) : Bool :=
  h.next head == head

/-- The loop of `usg_list_for_each_entry` from the node `pos` on: it stops when
`&pos->member == head` and otherwise visits `pos` and moves to `pos->member.next`; `none`
when the fuel runs out first. -/
def forEachFrom (h : Heap) (head : Nat) : Nat → Nat → Option (List Nat)
  | 0, pos => if pos = head then some [] else none
  | fuel + 1, pos =>
      if pos = head then some []
      else (forEachFrom h head fuel (h.next pos)).map (fun rest => pos :: rest)

/-- Macro `usg_list_for_each_entry (pos, head, member)`: the nodes visited, in order,
starting at `head->next`. -/
def usg_list_for_each_entry (h : Heap) (head fuel : Nat) : Option (List Nat) :=
  forEachFrom h head fuel (h.next head)

/-- A node is reachable from the head along `next`. -/
def Reachable (h : Heap) (head n : Nat) : Prop :=
  ∃ k, h.next^[k] head = n

/-- The list is circular: the traversal from the head comes back to the head. -/
def Circular (h : Heap) (head : Nat) : Prop :=
  ∃ fuel xs, usg_list_for_each_entry h head fuel = some xs

/-- Well-formed circular list: circular, and every node `n` reachable from the head has
`n.next.prev = n` and `n.prev.next = n`. -/
def WellFormed (h : Heap) (head : Nat) : Prop :=
  Circular h head ∧
    ∀ n, Reachable h head n → h.prev (h.next n) = n ∧ h.next (h.prev n) = n

/-- The abstraction: `xs` is the sequence of nodes `usg_list_for_each_entry` visits, which
it does whenever the fuel is at least the length of `xs`. -/
def Visits (h : Heap) (head : Nat) (xs : List Nat) : Prop :=
  ∀ fuel, xs.length ≤ fuel → usg_list_for_each_entry h head fuel = some xs

/-- The empty heap image used in examples: every pointer is 0. -/
def Heap.zero : Heap := ⟨fun _ => 0, fun _ => 0⟩

/-- The traversal from `pos` passes exactly through `xs` and then reaches `head`. -/
def Walk (h : Heap) (head : Nat) : Nat → List Nat → Prop
  | pos, [] => pos = head
  | pos, x :: xs => pos ≠ head ∧ x = pos ∧ Walk h head (h.next pos) xs

/-- Doubly linked segment: `p`, then the nodes `xs`, then `q`, consecutive nodes pointing
at each other. -/
def Seg (h : Heap) : Nat → List Nat → Nat → Prop
  | p, [], q => h.next p = q ∧ h.prev q = p
  | p, x :: xs, q => h.next p = x ∧ h.prev x = p ∧ Seg h x xs q

/-- Representation used in the proofs: the nodes `xs` between `head` and `head` form a
doubly linked segment and `head :: xs` has no repetition. -/
def IsList (h : Heap) (head : Nat) (xs : List Nat) : Prop :=
  Seg h head xs head ∧ (head :: xs).Nodup

/-! ## Theorems -/

/-! ### Byte-order macros -/

theorem bswap16_value (x : Nat) (hx : x < 2 ^ 16) :
    ((x &&& 0xFF) <<< 8) % 2 ^ 32 ||| x >>> 8 = swapBytes16 x := by
  have h1 : x &&& 0xFF = x % 2 ^ 8 := Nat.and_pow_two_sub_one_eq_mod x 8
  have h2 : x >>> 8 < 2 ^ 8 := by
    rw [Nat.shiftRight_eq_div_pow]; omega
  have h3 : ((x &&& 0xFF) <<< 8) % 2 ^ 32 = 2 ^ 8 * (x % 2 ^ 8) := by
    rw [h1, Nat.shiftLeft_eq]; omega
  rw [h3, ← Nat.mul_add_lt_is_or h2, Nat.shiftRight_eq_div_pow]
  unfold swapBytes16
  omega

theorem swapBytes16_lt (x : Nat) (hx : x < 2 ^ 16) : swapBytes16 x < 2 ^ 16 := by
  unfold swapBytes16; omega

theorem swapBytes16_swapBytes16 (x : Nat) (hx : x < 2 ^ 16) :
    swapBytes16 (swapBytes16 x) = x := by
  unfold swapBytes16; omega

theorem cEval_usg_bswap16 (x : Nat) (hx : x < 2 ^ 16) :
    cEval (usg_bswap16 [.num x]) = some (swapBytes16 x) := by
  have h : cEval (usg_bswap16 [.num x]) = some (((x &&& 0xFF) <<< 8) % 2 ^ 32 ||| x >>> 8) :=
    rfl
  rw [h, bswap16_value x hx]

/-- Supplementary to C1: the 16-bit round trip holds under either host byte order. -/
theorem usg_le16_round_trip (bo : ByteOrder) (x : Nat) (hx : x < 2 ^ 16) :
    ∃ y, cEval (usg_le16_to_cpu bo [.num x]) = some y ∧
      cEval (usg_cpu_to_le16 bo [.num y]) = some x := by
  cases bo with
  | little => exact ⟨x, rfl, rfl⟩
  | big =>
    refine ⟨swapBytes16 x, cEval_usg_bswap16 x hx, ?_⟩
    show cEval (usg_bswap16 [.num (swapBytes16 x)]) = some x
    rw [cEval_usg_bswap16 _ (swapBytes16_lt x hx), swapBytes16_swapBytes16 x hx]

/-- C1, at the failing input: on a big-endian host the nested macro call
`usg_cpu_to_le32(usg_le32_to_cpu(x))` with `x = 0x11223344` evaluates to `0x11114444`,
not to `x`; the inner call alone gives `0x44442211`. -/
theorem usg_le32_round_trip_big_endian_fails :
    cEval (usg_cpu_to_le32 .big (usg_le32_to_cpu .big [.num 0x11223344])) = some 0x11114444 ∧
    cEval (usg_le32_to_cpu .big [.num 0x11223344]) = some 0x44442211 ∧
    cEval (usg_cpu_to_le32 .big [.num 0x44442211]) = some 0x11114444 := by
  decide

/-- C2, at the failing input: on a big-endian host `usg_cpu_to_le32(0x11223344)` and
`usg_le32_to_cpu(0x11223344)` expand to `usg_bswap32(0x11223344)`, which evaluates to
`0x44442211`, while the four-byte reversal of `0x11223344` is `0x44332211`. -/
theorem usg_bswap32_not_byte_reversal :
    usg_cpu_to_le32 .big [.num 0x11223344] = usg_bswap32 [.num 0x11223344] ∧
    usg_le32_to_cpu .big [.num 0x11223344] = usg_bswap32 [.num 0x11223344] ∧
    cEval (usg_bswap32 [.num 0x11223344]) = some 0x44442211 ∧
    reverseBytes32 0x11223344 = 0x44332211 := by
  decide

/-- C3: for every 16-bit value `x`, `usg_cpu_to_le16(x)` and `usg_le16_to_cpu(x)` are `x`
in the little-endian branch; in the big-endian branch they are `usg_bswap16(x)`, whose
value is low byte times 256 plus high byte, again a 16-bit value. -/
theorem usg_le16_identity_or_swap (x : Nat) (hx : x < 2 ^ 16) :
    cEval (usg_cpu_to_le16 .little [.num x]) = some x ∧
    cEval (usg_le16_to_cpu .little [.num x]) = some x ∧
    usg_cpu_to_le16 .big [.num x] = usg_bswap16 [.num x] ∧
    usg_le16_to_cpu .big [.num x] = usg_bswap16 [.num x] ∧
    cEval (usg_bswap16 [.num x]) = some ((x % 256) * 256 + x / 256) ∧
    (x % 256) * 256 + x / 256 < 2 ^ 16 :=
  ⟨rfl, rfl, rfl, rfl, cEval_usg_bswap16 x hx, swapBytes16_lt x hx⟩

theorem usg_le16_identity_or_swap_witness :
    cEval (usg_cpu_to_le16 .little [.num 0x1234]) = some 0x1234 ∧
    cEval (usg_le16_to_cpu .little [.num 0x1234]) = some 0x1234 ∧
    usg_cpu_to_le16 .big [.num 0x1234] = usg_bswap16 [.num 0x1234] ∧
    usg_le16_to_cpu .big [.num 0x1234] = usg_bswap16 [.num 0x1234] ∧
    cEval (usg_bswap16 [.num 0x1234]) = some ((0x1234 % 256) * 256 + 0x1234 / 256) ∧
    (0x1234 % 256) * 256 + 0x1234 / 256 < 2 ^ 16 :=
  usg_le16_identity_or_swap 0x1234 (by decide)

/-! ### Descriptors of the loopback example -/

/-- Supplementary to C5: the fields initialised through `usg_cpu_to_le16` (`bcdUSB` and
the four `wMaxPacketSize`) lie in memory in wire order on either host. -/
theorem converted_fields_wire_order (bo : ByteOrder) :
    (loopback_device_descriptor bo).map (fun d => hostBytes16 bo d.bcdUSB)
      = some (wireBytes16 0x0200) ∧
    (loopback_ep_in_descriptor bo).map (fun d => hostBytes16 bo d.wMaxPacketSize)
      = some (wireBytes16 64) ∧
    (loopback_ep_out_descriptor bo).map (fun d => hostBytes16 bo d.wMaxPacketSize)
      = some (wireBytes16 64) ∧
    (loopback_hs_ep_in_descriptor bo).map (fun d => hostBytes16 bo d.wMaxPacketSize)
      = some (wireBytes16 512) ∧
    (loopback_hs_ep_out_descriptor bo).map (fun d => hostBytes16 bo d.wMaxPacketSize)
      = some (wireBytes16 512) := by
  cases bo <;> decide

/-- Supplementary to C5: on a little-endian host `idVendor` and `idProduct` lie in memory
in wire order, for every vendor and product id. -/
theorem main_ids_wire_order_little_endian (vendor_id product_id : Nat) :
    (main_device_descriptor .little vendor_id product_id).map
        (fun d => (hostBytes16 .little d.idVendor, hostBytes16 .little d.idProduct))
      = some (wireBytes16 (vendor_id % 2 ^ 16), wireBytes16 (product_id % 2 ^ 16)) :=
  rfl

/-- C5, at the failing input: on a big-endian host with `VEND:PROD` = `1234:ABCD`, the
descriptor handed to `usg_open` holds `idVendor` and `idProduct` in memory as `12 34` and
`AB CD` (high byte first), while the wire order is `34 12` and `CD AB`; on the same host
`bcdUSB` is in wire order. -/
theorem main_ids_not_wire_order_big_endian :
    (main_device_descriptor .big 0x1234 0xABCD).map (fun d => hostBytes16 .big d.idVendor)
      = some [0x12, 0x34] ∧
    wireBytes16 0x1234 = [0x34, 0x12] ∧
    (main_device_descriptor .big 0x1234 0xABCD).map (fun d => hostBytes16 .big d.idProduct)
      = some [0xAB, 0xCD] ∧
    wireBytes16 0xABCD = [0xCD, 0xAB] ∧
    (main_device_descriptor .big 0x1234 0xABCD).map (fun d => hostBytes16 .big d.bcdUSB)
      = some (wireBytes16 0x0200) := by
  decide

/-- C10, at the failing input: on a big-endian host the one-byte string indices of the
device descriptor are all 0 (`usg_cpu_to_le16(25)` is `0x1900`, whose low byte is 0),
while the strings are registered under 25, 45 and 101; on a little-endian host the indices
are 25, 45 and 101. -/
theorem string_indices_lost_big_endian :
    (loopback_device_descriptor .big).map
      (fun d => (d.iManufacturer, d.iProduct, d.iSerialNumber)) = some (0, 0, 0) ∧
    cEval (usg_cpu_to_le16 .big [.num STRING_MANUFACTURER]) = some 0x1900 ∧
    (stringId "The manufacturer", stringId "The product",
      stringId "0123456789.0123456789.0123456789") = (some 25, some 45, some 101) ∧
    (loopback_device_descriptor .little).map
      (fun d => (d.iManufacturer, d.iProduct, d.iSerialNumber)) = some (25, 45, 101) := by
  decide

/-! ### The worker loop of the loopback example -/

theorem swapBody_length {α : Type} [Inhabited α] (ret : Nat) (buf : List α) (i : Nat) :
    (swapBody ret buf i).length = buf.length := by
  simp [swapBody]

theorem swapBody_getElem? {α : Type} [Inhabited α] (n : Nat) (buf : List α) (i j : Nat)
    (hn : n ≤ buf.length) (hi : i < n / 2) :
    (swapBody n buf i)[j]? =
      if j = i then buf[n - i - 1]? else if j = n - i - 1 then buf[i]? else buf[j]? := by
  have h1 : i < buf.length := by omega
  have h2 : n - i - 1 < buf.length := by omega
  simp only [swapBody, List.getD_eq_getElem?_getD, List.getElem?_set, List.length_set]
  by_cases hji : j = i
  · subst hji
    have : ¬ (n - j - 1 = j) := by omega
    simp [this, h1, h2]
  · by_cases hjn : j = n - i - 1
    · subst hjn
      simp [h1, h2, hji]
    · have e1 : ¬ (n - i - 1 = j) := fun h => hjn h.symm
      have e2 : ¬ (i = j) := fun h => hji h.symm
      simp [hji, hjn, e1, e2]


theorem reverseLoop_prefix {α : Type} [Inhabited α] (n : Nat) (buf : List α)
    (hn : n ≤ buf.length) (k : Nat) (hk : k ≤ n / 2) :
    ((List.range k).foldl (swapBody n) buf).length = buf.length ∧
    ∀ j, ((List.range k).foldl (swapBody n) buf)[j]? =
      if j < k ∨ (n - k ≤ j ∧ j < n) then buf[n - 1 - j]? else buf[j]? := by
  induction k with
  | zero =>
    refine ⟨rfl, fun j => ?_⟩
    have : ¬ (j < 0 ∨ (n - 0 ≤ j ∧ j < n)) := by omega
    rw [if_neg this]
    rfl
  | succ k ih =>
    obtain ⟨hlen, hget⟩ := ih (by omega)
    rw [List.range_succ, List.foldl_append]
    simp only [List.foldl_cons, List.foldl_nil]
    refine ⟨by rw [swapBody_length, hlen], fun j => ?_⟩
    rw [swapBody_getElem? n _ k j (by omega) (by omega), hget, hget, hget]
    by_cases h1 : j = k
    · subst h1
      have a1 : ¬ (n - j - 1 < j ∨ (n - j ≤ n - j - 1 ∧ n - j - 1 < n)) := by omega
      have a2 : j < j + 1 ∨ (n - (j + 1) ≤ j ∧ j < n) := by omega
      simp only [a1, a2, if_true, if_false]
      congr 1
      omega
    · by_cases h2 : j = n - k - 1
      · subst h2
        have a1 : ¬ (k < k ∨ (n - k ≤ k ∧ k < n)) := by omega
        have a2 : n - k - 1 < k + 1 ∨ (n - (k + 1) ≤ n - k - 1 ∧ n - k - 1 < n) := by omega
        simp only [h1, a1, a2, if_true, if_false]
        congr 1
        omega
      · simp only [h1, h2, if_false]
        have a : (j < k ∨ (n - k ≤ j ∧ j < n)) ↔
            (j < k + 1 ∨ (n - (k + 1) ≤ j ∧ j < n)) := by
          omega
        simp only [a]

theorem reverseLoop_take {α : Type} [Inhabited α] (n : Nat) (buf : List α)
    (hn : n ≤ buf.length) :
    (reverseLoop n buf).take n = (buf.take n).reverse := by
  obtain ⟨_, hget⟩ := reverseLoop_prefix n buf hn (n / 2) (Nat.le_refl _)
  apply List.ext_getElem?
  intro j
  unfold reverseLoop
  rw [List.getElem?_take]
  by_cases hj : j < n
  · have hlen : (buf.take n).length = n := by simp [hn]
    rw [if_pos hj, hget, List.getElem?_reverse (by omega), hlen, List.getElem?_take]
    have a : j < n / 2 ∨ (n - n / 2 ≤ j ∧ j < n) ∨ n - 1 - j = j := by omega
    have b : n - 1 - j < n := by omega
    rw [if_pos b]
    rcases a with a | a | a
    · rw [if_pos (Or.inl a)]
    · rw [if_pos (Or.inr a)]
    · by_cases c : j < n / 2 ∨ (n - n / 2 ≤ j ∧ j < n)
      · rw [if_pos c]
      · rw [if_neg c, a]
  · rw [if_neg hj]
    symm
    apply List.getElem?_eq_none
    simp
    omega

/-- C4: for every buffer of at least 64 bytes and every read result `n` with
`0 ≤ n ≤ 64`, one iteration of the worker loop hands the write exactly `n` bytes, byte `i`
written being byte `n - 1 - i` read, that is, the `n` received bytes reversed; for
`n = 0` and `n = 1` the data is unchanged, and `HELLO` is echoed as `OLLEH`. -/
theorem loopback_echo_reverses {α : Type} [Inhabited α] (buf : List α) (n : Nat)
    (hn : n ≤ 64) (hbuf : 64 ≤ buf.length) :
    ∃ w, loopback_iteration buf (n : Int) = some w ∧ w.length = n ∧
      (∀ i, i < n → w[i]? = buf[n - 1 - i]?) ∧
      w = (buf.take n).reverse ∧
      (n ≤ 1 → w = buf.take n) ∧
      ∀ rest : List Char,
        loopback_iteration ("HELLO".toList ++ rest) 5 = some "OLLEH".toList := by
  have hle : n ≤ buf.length := by omega
  have hw : loopback_iteration buf (n : Int) = some ((buf.take n).reverse) := by
    unfold loopback_iteration
    rw [if_neg (by omega), Int.toNat_ofNat, reverseLoop_take n buf hle]
  refine ⟨(buf.take n).reverse, hw, by simp [hle], ?_, rfl, ?_, ?_⟩
  · intro i hi
    have hlen : (buf.take n).length = n := by simp [hle]
    rw [List.getElem?_reverse (by omega), hlen, List.getElem?_take, if_pos (by omega)]
  · intro h1
    have hlen : (buf.take n).length ≤ 1 := by simp; omega
    match hb : buf.take n, hlen with
    | [], _ => rfl
    | [a], _ => rfl
  · intro rest
    unfold loopback_iteration
    rw [if_neg (by decide)]
    have h5 : (5 : Int).toNat = 5 := rfl
    rw [h5, reverseLoop_take 5 _ (by simp)]
    rfl

theorem loopback_echo_reverses_witness :
    ∃ w, loopback_iteration ("HELLO".toList ++ List.replicate 59 'x') ((5 : Nat) : Int)
        = some w ∧ w.length = 5 ∧
      (∀ i, i < 5 → w[i]? = ("HELLO".toList ++ List.replicate 59 'x')[5 - 1 - i]?) ∧
      w = (("HELLO".toList ++ List.replicate 59 'x').take 5).reverse ∧
      (5 ≤ 1 → w = ("HELLO".toList ++ List.replicate 59 'x').take 5) ∧
      ∀ rest : List Char,
        loopback_iteration ("HELLO".toList ++ rest) 5 = some "OLLEH".toList :=
  loopback_echo_reverses ("HELLO".toList ++ List.replicate 59 'x') 5 (by decide) (by decide)

/-! ### The event callback of the loopback example -/

theorem ep_in_number_eq : ep_in_number = 7 := by decide
theorem ep_out_number_eq : ep_out_number = 3 := by decide

theorem disconnectCase_fst (s : LoopbackState) : (disconnectCase s).1 = s := by
  unfold disconnectCase; cases s.loopback_thread <;> rfl

theorem disconnectCase_idle (s : LoopbackState) (live : List Nat) (rest : List Action)
    (h : live = [] ∨ live = s.loopback_thread.toList) :
    startsOnlyWhenIdle live ((disconnectCase s).2 ++ rest) = startsOnlyWhenIdle [] rest := by
  unfold disconnectCase
  cases ht : s.loopback_thread with
  | none =>
    rw [ht] at h
    have : live = [] := by rcases h with h | h <;> simpa using h
    subst this
    rfl
  | some t =>
    rw [ht] at h
    rcases h with h | h <;> subst h <;> simp [startsOnlyWhenIdle]

theorem runEvents_idle (env : Env) (hep : ∀ n, (env.usg_endpoint n).isSome = true)
    (hth : env.pthread_create_ok = true) (events : List usg_event) :
    ∀ (s : LoopbackState) (in7 in3 : Bool) (live : List Nat),
      (in7 = true ↔ s.loopback_ep_in.isSome = true) →
      (in3 = true ↔ s.loopback_ep_out.isSome = true) →
      (live = [] ∨ (live = s.loopback_thread.toList ∧ s.loopback_ep_in.isSome = true ∧
        s.loopback_ep_out.isSome = true)) →
      enablesFollowDisables in7 in3 events = true →
      startsOnlyWhenIdle live (runEvents env s events).2 = true := by
  induction events with
  | nil => intros; rfl
  | cons e es ih =>
    intro s in7 in3 live h7 h3 hl hp
    obtain ⟨ty, n⟩ := e
    cases ty with
    | USG_EVENT_CONNECT => exact ih s in7 in3 live h7 h3 hl hp
    | USG_EVENT_SUSPEND => exact ih s in7 in3 live h7 h3 hl hp
    | USG_EVENT_DISCONNECT =>
      show startsOnlyWhenIdle live
        ((disconnectCase s).2 ++ (runEvents env (disconnectCase s).1 es).2) = true
      rw [disconnectCase_idle s live _ (hl.imp id (fun h => h.1)), disconnectCase_fst]
      exact ih s in7 in3 [] h7 h3 (Or.inl rfl) hp
    | USG_EVENT_ENDPOINT_DISABLE =>
      simp only [enablesFollowDisables] at hp
      simp only [runEvents, loopback_event_cb, ep_in_number_eq, ep_out_number_eq]
      by_cases c7 : n = 7
      · rw [if_pos c7] at hp
        rw [if_pos c7, disconnectCase_idle { s with loopback_ep_in := none } live _
          (hl.imp id (fun h => h.1)), disconnectCase_fst]
        exact ih _ false in3 [] (by simp) h3 (Or.inl rfl) hp
      · rw [if_neg c7] at hp
        rw [if_neg c7]
        by_cases c3 : n = 3
        · rw [if_pos c3] at hp
          rw [if_pos c3, disconnectCase_idle { s with loopback_ep_out := none } live _
            (hl.imp id (fun h => h.1)), disconnectCase_fst]
          exact ih _ in7 false [] h7 (by simp) (Or.inl rfl) hp
        · rw [if_neg c3] at hp
          rw [if_neg c3, disconnectCase_idle _ live _ (hl.imp id (fun h => h.1)),
            disconnectCase_fst]
          exact ih _ in7 in3 [] h7 h3 (Or.inl rfl) hp
    | USG_EVENT_ENDPOINT_ENABLE =>
      simp only [enablesFollowDisables] at hp
      simp only [runEvents, loopback_event_cb, ep_in_number_eq, ep_out_number_eq, hth]
      by_cases c7 : n = 7
      · rw [if_pos c7, Bool.and_eq_true] at hp
        obtain ⟨hin, hp⟩ := hp
        have hnone : s.loopback_ep_in.isSome = false := by
          cases hh : s.loopback_ep_in.isSome
          · rfl
          · rw [h7.mpr hh] at hin; simp at hin
        have hlive : live = [] := by
          rcases hl with hl | ⟨_, hl, _⟩
          · exact hl
          · rw [hnone] at hl; simp at hl
        subst hlive
        rw [if_pos c7]
        obtain ⟨h, hh⟩ := Option.isSome_iff_exists.mp (hep n)
        simp only [hh]
        cases ho : s.loopback_ep_out with
        | none =>
          simp only [ho, or_true, if_true]
          exact ih _ true in3 [] (by simp) (by simpa [ho] using h3) (Or.inl rfl) hp
        | some o =>
          simp only [ho, reduceCtorEq, or_self, if_false, if_true, List.singleton_append,
            startsOnlyWhenIdle, List.isEmpty_nil, Bool.true_and]
          exact ih _ true in3 [s.created + 1] (by simp) (by simpa [ho] using h3)
            (Or.inr ⟨by simp, by simp, by simp⟩) hp
      · rw [if_neg c7] at hp
        rw [if_neg c7]
        by_cases c3 : n = 3
        · rw [if_pos c3, Bool.and_eq_true] at hp
          obtain ⟨hin, hp⟩ := hp
          have hnone : s.loopback_ep_out.isSome = false := by
            cases hh : s.loopback_ep_out.isSome
            · rfl
            · rw [h3.mpr hh] at hin; simp at hin
          have hlive : live = [] := by
            rcases hl with hl | ⟨_, _, hl⟩
            · exact hl
            · rw [hnone] at hl; simp at hl
          subst hlive
          rw [if_pos c3]
          obtain ⟨h, hh⟩ := Option.isSome_iff_exists.mp (hep n)
          simp only [hh]
          cases hi : s.loopback_ep_in with
          | none =>
            simp only [hi, true_or, if_true]
            exact ih _ in7 true [] (by simpa [hi] using h7) (by simp) (Or.inl rfl) hp
          | some o =>
            simp only [hi, reduceCtorEq, or_self, if_false, if_true, List.singleton_append,
              startsOnlyWhenIdle, List.isEmpty_nil, Bool.true_and]
            exact ih _ in7 true [s.created + 1] (by simpa [hi] using h7) (by simp)
              (Or.inr ⟨by simp, by simp, by simp⟩) hp
        · rw [if_neg c3] at hp
          simp at hp

/-- Supplementary to C6: in every state, `ENDPOINT_DISABLE(7)` leaves `loopback_ep_in`
`NULL` and `ENDPOINT_DISABLE(3)` leaves `loopback_ep_out` `NULL`, the other variables as
they were. -/
theorem disable_clears_handle (env : Env) (s : LoopbackState) :
    (loopback_event_cb env s (ENDPOINT_DISABLE 7)).1 = { s with loopback_ep_in := none } ∧
    (loopback_event_cb env s (ENDPOINT_DISABLE 3)).1 = { s with loopback_ep_out := none } :=
  ⟨disconnectCase_fst _, disconnectCase_fst _⟩

/-- C6, at the failing input: in the state with both handles set and worker 1 started,
`DISCONNECT` requests the cancellation of worker 1 and leaves `loopback_ep_in` and
`loopback_ep_out` set, where `ENDPOINT_DISABLE(7)` and `ENDPOINT_DISABLE(3)` in the same
state reset their handle to `NULL`; in the run `ENABLE(7), ENABLE(3), DISCONNECT,
ENABLE(7)` the single `ENABLE(7)` after the disconnect then starts worker 2 while
`loopback_ep_out` still holds the handle obtained before the disconnect. -/
theorem disconnect_keeps_handles :
    (loopback_event_cb Env.succeeding ⟨some 7, some 3, some 1, 1⟩ DISCONNECT)
      = (⟨some 7, some 3, some 1, 1⟩, [.cancel 1]) ∧
    (loopback_event_cb Env.succeeding ⟨some 7, some 3, some 1, 1⟩ (ENDPOINT_DISABLE 7))
      = (⟨none, some 3, some 1, 1⟩, [.cancel 1]) ∧
    (loopback_event_cb Env.succeeding ⟨some 7, some 3, some 1, 1⟩ (ENDPOINT_DISABLE 3))
      = (⟨some 7, none, some 1, 1⟩, [.cancel 1]) ∧
    runEvents Env.succeeding .init [ENDPOINT_ENABLE 7, ENDPOINT_ENABLE 3, DISCONNECT]
      = (⟨some 7, some 3, some 1, 1⟩, [.start 1, .cancel 1]) ∧
    runEvents Env.succeeding .init
        [ENDPOINT_ENABLE 7, ENDPOINT_ENABLE 3, DISCONNECT, ENDPOINT_ENABLE 7]
      = (⟨some 7, some 3, some 2, 2⟩, [.start 1, .cancel 1, .start 2]) := by
  decide

/-- C7: in every state in which a worker has been started (`loopback_thread` is set),
`ENDPOINT_DISABLE(n)` for any `n` and `DISCONNECT` each request cancellation of that worker
exactly once and nothing else; in every state `CONNECT` and `SUSPEND` request nothing and
leave the file-scope variables unchanged. -/
theorem cancel_on_disable_and_disconnect (env : Env) (s : LoopbackState) (n : Int) :
    (∀ t, s.loopback_thread = some t →
      (loopback_event_cb env s (ENDPOINT_DISABLE n)).2 = [.cancel t] ∧
      (loopback_event_cb env s ⟨.USG_EVENT_DISCONNECT, n⟩).2 = [.cancel t]) ∧
    loopback_event_cb env s ⟨.USG_EVENT_CONNECT, n⟩ = (s, []) ∧
    loopback_event_cb env s ⟨.USG_EVENT_SUSPEND, n⟩ = (s, []) := by
  refine ⟨fun t ht => ⟨?_, ?_⟩, rfl, rfl⟩
  · simp only [loopback_event_cb, ENDPOINT_DISABLE]
    split_ifs <;> simp [disconnectCase, ht]
  · simp [loopback_event_cb, disconnectCase, ht]

theorem cancel_on_disable_and_disconnect_witness :
    (loopback_event_cb Env.succeeding ⟨some 7, some 3, some 1, 1⟩ (ENDPOINT_DISABLE 7)).2
      = [.cancel 1] ∧
    (loopback_event_cb Env.succeeding ⟨some 7, some 3, some 1, 1⟩
      ⟨.USG_EVENT_DISCONNECT, 7⟩).2 = [.cancel 1] :=
  (cancel_on_disable_and_disconnect Env.succeeding ⟨some 7, some 3, some 1, 1⟩ 7).1 1 rfl

/-- C9, counterexample: with `usg_endpoint` and `pthread_create` always succeeding, the
events `ENABLE(7), ENABLE(3), ENABLE(7)` from the initial state start worker 1 and then
worker 2, with no cancellation of worker 1 in between. -/
theorem second_enable_starts_second_worker :
    (∀ n, (Env.succeeding.usg_endpoint n).isSome = true) ∧
    Env.succeeding.pthread_create_ok = true ∧
    (runEvents Env.succeeding .init
      [ENDPOINT_ENABLE 7, ENDPOINT_ENABLE 3, ENDPOINT_ENABLE 7]).2 = [.start 1, .start 2] ∧
    startsOnlyWhenIdle [] (runEvents Env.succeeding .init
      [ENDPOINT_ENABLE 7, ENDPOINT_ENABLE 3, ENDPOINT_ENABLE 7]).2 = false :=
  ⟨fun _ => rfl, rfl, by decide, by decide⟩

/-- C9, amended: from the initial state, with `usg_endpoint` and `pthread_create` always
succeeding, for every event sequence in which each `ENDPOINT_ENABLE(n)` is for endpoint 7
or 3 and follows no earlier `ENDPOINT_ENABLE(n)` without an `ENDPOINT_DISABLE(n)` in
between, the callback never starts a worker while an earlier one is started and not asked
to cancel. -/
theorem single_worker_when_enables_follow_disables (env : Env)
    (hep : ∀ n, (env.usg_endpoint n).isSome = true) (hth : env.pthread_create_ok = true)
    (events : List usg_event) (hp : enablesFollowDisables false false events = true) :
    startsOnlyWhenIdle [] (runEvents env .init events).2 = true :=
  runEvents_idle env hep hth events .init false false [] (by simp [LoopbackState.init])
    (by simp [LoopbackState.init]) (Or.inl rfl) hp

theorem single_worker_when_enables_follow_disables_witness :
    startsOnlyWhenIdle [] (runEvents Env.succeeding .init
      [ENDPOINT_ENABLE 7, ENDPOINT_ENABLE 3, CONNECT, ENDPOINT_DISABLE 7, DISCONNECT,
        ENDPOINT_ENABLE 7]).2 = true :=
  single_worker_when_enables_follow_disables Env.succeeding (fun _ => rfl) rfl
    [ENDPOINT_ENABLE 7, ENDPOINT_ENABLE 3, CONNECT, ENDPOINT_DISABLE 7, DISCONNECT,
      ENDPOINT_ENABLE 7] (by decide)

/-! ### The intrusive list -/

theorem forEachFrom_eq_some (h : Heap) (head : Nat) (fuel : Nat) :
    ∀ pos xs, forEachFrom h head fuel pos = some xs ↔
      Walk h head pos xs ∧ xs.length ≤ fuel := by
  induction fuel with
  | zero =>
    intro pos xs
    cases xs with
    | nil => by_cases hp : pos = head <;> simp [forEachFrom, Walk, hp]
    | cons x xs => by_cases hp : pos = head <;> simp [forEachFrom, Walk, hp]
  | succ fuel ih =>
    intro pos xs
    cases xs with
    | nil => by_cases hp : pos = head <;> simp [forEachFrom, Walk, hp]
    | cons x xs =>
      by_cases hp : pos = head
      · simp [forEachFrom, Walk, hp]
      · simp only [forEachFrom, if_neg hp, Walk, Option.map_eq_some', List.cons.injEq,
          List.length_cons, Nat.add_le_add_iff_right]
        constructor
        · rintro ⟨ys, hys, rfl, rfl⟩
          exact ⟨⟨hp, rfl, ((ih _ _).mp hys).1⟩, ((ih _ _).mp hys).2⟩
        · rintro ⟨⟨_, rfl, hw⟩, hl⟩
          exact ⟨xs, (ih _ _).mpr ⟨hw, hl⟩, rfl, rfl⟩


theorem Walk_of_iterate (h : Heap) (head : Nat) :
    ∀ m pos, h.next^[m] pos = head → ∃ xs, Walk h head pos xs := by
  intro m
  induction m with
  | zero => intro pos hp; exact ⟨[], hp⟩
  | succ m ih =>
    intro pos hp
    by_cases c : pos = head
    · exact ⟨[], c⟩
    · rw [Function.iterate_succ_apply] at hp
      obtain ⟨xs, hw⟩ := ih _ hp
      exact ⟨pos :: xs, c, rfl, hw⟩

theorem iterate_cancel (h : Heap) (head : Nat)
    (hl : ∀ n, Reachable h head n → h.prev (h.next n) = n) (d : Nat) :
    ∀ i, h.next^[i] head = h.next^[i + d] head → head = h.next^[d] head := by
  intro i
  induction i with
  | zero => intro e; simpa using e
  | succ i ih =>
    intro e
    apply ih
    have e' : h.next (h.next^[i] head) = h.next (h.next^[i + d] head) := by
      have e1 := Function.iterate_succ_apply' h.next i head
      have e2 := Function.iterate_succ_apply' h.next (i + d) head
      rw [← e1, ← e2, show (i + d).succ = i + 1 + d by omega]
      exact e
    have := congrArg h.prev e'
    rwa [hl _ ⟨i, rfl⟩, hl _ ⟨i + d, rfl⟩] at this

theorem Circular_of_bounded (h : Heap) (head N : Nat)
    (hb : ∀ n, Reachable h head n → n < N)
    (hl : ∀ n, Reachable h head n → h.prev (h.next n) = n) : Circular h head := by
  have hmaps : ∀ i ∈ Finset.range (N + 1), h.next^[i] head ∈ Finset.range N :=
    fun i _ => Finset.mem_range.mpr (hb _ ⟨i, rfl⟩)
  obtain ⟨i, _, j, _, hij, e⟩ :=
    Finset.exists_ne_map_eq_of_card_lt_of_maps_to (by simp) hmaps
  have key : ∃ d, 0 < d ∧ h.next^[d] head = head := by
    rcases Nat.lt_or_gt_of_ne hij with c | c
    · refine ⟨j - i, by omega, (iterate_cancel h head hl (j - i) i ?_).symm⟩
      rw [show i + (j - i) = j by omega]; exact e
    · refine ⟨i - j, by omega, (iterate_cancel h head hl (i - j) j ?_).symm⟩
      rw [show j + (i - j) = i by omega]; exact e.symm
  obtain ⟨d, hd, hcyc⟩ := key
  obtain ⟨m, rfl⟩ : ∃ m, d = m + 1 := ⟨d - 1, by omega⟩
  rw [Function.iterate_succ_apply] at hcyc
  obtain ⟨xs, hw⟩ := Walk_of_iterate h head m _ hcyc
  exact ⟨xs.length, xs, (forEachFrom_eq_some h head _ _ _).mpr ⟨hw, Nat.le_refl _⟩⟩

theorem Walk_not_mem (h : Heap) (head : Nat) :
    ∀ xs pos, Walk h head pos xs → head ∉ xs := by
  intro xs
  induction xs with
  | nil => intro _ _; simp
  | cons x xs ih =>
    rintro pos ⟨hne, rfl, hw⟩
    simp only [List.mem_cons, not_or]
    exact ⟨fun e => hne e.symm, ih _ hw⟩

theorem Walk_unique (h : Heap) (head : Nat) :
    ∀ xs ys pos, Walk h head pos xs → Walk h head pos ys → xs = ys := by
  intro xs
  induction xs with
  | nil =>
    intro ys pos hx hy
    cases ys with
    | nil => rfl
    | cons y ys => exact absurd hx hy.1
  | cons x xs ih =>
    intro ys pos hx hy
    cases ys with
    | nil => exact absurd hy hx.1
    | cons y ys =>
      obtain ⟨_, rfl, hx⟩ := hx
      obtain ⟨_, rfl, hy⟩ := hy
      rw [ih ys _ hx hy]

theorem Walk_suffix (h : Heap) (head x : Nat) (l2 : List Nat) :
    ∀ l1 pos, Walk h head pos (l1 ++ x :: l2) → Walk h head (h.next x) l2 := by
  intro l1
  induction l1 with
  | nil =>
    rintro pos ⟨_, rfl, hw⟩
    exact hw
  | cons a l1 ih =>
    rintro pos ⟨_, _, hw⟩
    exact ih _ hw

theorem Walk_nodup (h : Heap) (head : Nat) :
    ∀ xs pos, Walk h head pos xs → xs.Nodup := by
  intro xs
  induction xs with
  | nil => intro _ _; exact List.nodup_nil
  | cons x xs ih =>
    rintro pos ⟨_, rfl, hw⟩
    refine List.nodup_cons.mpr ⟨fun hmem => ?_, ih _ hw⟩
    obtain ⟨l1, l2, rfl⟩ := List.append_of_mem hmem
    have hs := Walk_suffix h head x l2 l1 _ hw
    have := congrArg List.length (Walk_unique h head _ _ _ hw hs)
    simp at this
    omega

theorem Walk_pos_mem (h : Heap) (head pos : Nat) (xs : List Nat)
    (hw : Walk h head pos xs) : pos ∈ head :: xs := by
  cases xs with
  | nil => simp [show pos = head from hw]
  | cons x xs => simp [hw.2.1]

theorem Walk_next_mem (h : Heap) (head : Nat) :
    ∀ xs pos, Walk h head pos xs → ∀ n ∈ xs, h.next n ∈ head :: xs := by
  intro xs
  induction xs with
  | nil => intro _ _ n hn; simp at hn
  | cons x xs ih =>
    rintro pos ⟨_, rfl, hw⟩ n hn
    rcases List.mem_cons.mp hn with rfl | hn
    · have := Walk_pos_mem h head _ xs hw
      simp only [List.mem_cons] at this ⊢
      tauto
    · have := ih _ hw n hn
      simp only [List.mem_cons] at this ⊢
      tauto

theorem Walk_reach (h : Heap) (head : Nat) :
    ∀ xs pos, Walk h head pos xs → ∀ n ∈ xs, ∃ k, h.next^[k] pos = n := by
  intro xs
  induction xs with
  | nil => intro _ _ n hn; simp at hn
  | cons x xs ih =>
    rintro pos ⟨_, rfl, hw⟩ n hn
    rcases List.mem_cons.mp hn with rfl | hn
    · exact ⟨0, rfl⟩
    · obtain ⟨k, hk⟩ := ih _ hw n hn
      exact ⟨k + 1, by rw [Function.iterate_succ_apply]; exact hk⟩

theorem Seg_frame (h g : Heap) (q : Nat) :
    ∀ xs p, Seg h p xs q → (∀ n ∈ p :: xs, g.next n = h.next n) →
      (∀ n ∈ xs ++ [q], g.prev n = h.prev n) → Seg g p xs q := by
  intro xs
  induction xs with
  | nil =>
    rintro p ⟨h1, h2⟩ hn hp
    exact ⟨by rw [hn p (by simp), h1], by rw [hp q (by simp), h2]⟩
  | cons x xs ih =>
    rintro p ⟨h1, h2, h3⟩ hn hp
    refine ⟨by rw [hn p (by simp), h1], by rw [hp x (by simp), h2], ih x h3 ?_ ?_⟩
    · intro n hmem
      exact hn n (List.mem_cons_of_mem _ hmem)
    · intro n hmem
      exact hp n (by simpa using Or.inr (by simpa using hmem))

theorem Seg_append (h : Heap) (y q : Nat) (ys : List Nat) :
    ∀ xs p, Seg h p (xs ++ y :: ys) q ↔ Seg h p xs y ∧ Seg h y ys q := by
  intro xs
  induction xs with
  | nil => intro p; simp [Seg, and_assoc]
  | cons x xs ih => intro p; simp [Seg, ih, and_assoc]

theorem Seg_prev_next (h : Heap) (q : Nat) :
    ∀ xs p, Seg h p xs q → ∀ n ∈ p :: xs, h.prev (h.next n) = n := by
  intro xs
  induction xs with
  | nil =>
    rintro p ⟨h1, h2⟩ n hn
    obtain rfl : n = p := by simpa using hn
    rw [h1, h2]
  | cons x xs ih =>
    rintro p ⟨h1, h2, h3⟩ n hn
    rcases List.mem_cons.mp hn with rfl | hn
    · rw [h1, h2]
    · exact ih x h3 n hn

theorem Seg_next_prev (h : Heap) (q : Nat) :
    ∀ xs p, Seg h p xs q → ∀ n ∈ xs ++ [q], h.next (h.prev n) = n := by
  intro xs
  induction xs with
  | nil =>
    rintro p ⟨h1, h2⟩ n hn
    obtain rfl : n = q := by simpa using hn
    rw [h2, h1]
  | cons x xs ih =>
    rintro p ⟨h1, h2, h3⟩ n hn
    rcases List.mem_cons.mp hn with rfl | hn
    · rw [h2, h1]
    · exact ih x h3 n hn

theorem Seg_walk (h : Heap) (q : Nat) :
    ∀ xs p, Seg h p xs q → q ∉ xs → Walk h q (h.next p) xs := by
  intro xs
  induction xs with
  | nil => rintro p ⟨h1, _⟩ _; exact h1
  | cons x xs ih =>
    rintro p ⟨h1, _, h3⟩ hq
    simp only [List.mem_cons, not_or] at hq
    exact ⟨by rw [h1]; exact fun e => hq.1 e.symm, h1.symm, by rw [h1]; exact ih x h3 hq.2⟩

theorem Walk_seg (h : Heap) (q : Nat) :
    ∀ xs p, Walk h q (h.next p) xs → (∀ n ∈ p :: xs, h.prev (h.next n) = n) →
      Seg h p xs q := by
  intro xs
  induction xs with
  | nil =>
    intro p hw hp
    have e : h.next p = q := hw
    exact ⟨e, by rw [← e]; exact hp p (by simp)⟩
  | cons x xs ih =>
    rintro p ⟨_, e, hw⟩ hp
    refine ⟨e.symm, by rw [e]; exact hp p (by simp), ih x (by rw [e]; exact hw) ?_⟩
    intro n hn
    exact hp n (List.mem_cons_of_mem _ hn)

theorem Seg_prev_last (h : Heap) (q : Nat) :
    ∀ xs p, Seg h p xs q → h.prev q ∈ p :: xs := by
  intro xs
  induction xs with
  | nil => rintro p ⟨_, h2⟩; simp [h2]
  | cons x xs ih =>
    rintro p ⟨_, _, h3⟩
    exact List.mem_cons_of_mem _ (ih x h3)

theorem Seg_next_first (h : Heap) (p q : Nat) (xs : List Nat) (hs : Seg h p xs q) :
    h.next p ∈ xs ++ [q] := by
  cases xs with
  | nil => simp [hs.1]
  | cons x xs => simp [hs.1]


theorem Visits_walk (h : Heap) (head : Nat) (xs : List Nat) (hv : Visits h head xs) :
    Walk h head (h.next head) xs :=
  ((forEachFrom_eq_some h head xs.length _ _).mp (hv xs.length (Nat.le_refl _))).1

theorem Visits_unique (h : Heap) (head : Nat) (xs ys : List Nat) (hx : Visits h head xs)
    (hy : Visits h head ys) : ys = xs :=
  Walk_unique h head _ _ _ (Visits_walk h head ys hy) (Visits_walk h head xs hx)

theorem IsList_of_wellFormed (h : Heap) (head : Nat) (xs : List Nat)
    (hwf : WellFormed h head) (hv : Visits h head xs) : IsList h head xs := by
  have hw := Visits_walk h head xs hv
  refine ⟨Walk_seg h head xs head hw ?_, List.nodup_cons.mpr
    ⟨Walk_not_mem h head xs _ hw, Walk_nodup h head xs _ hw⟩⟩
  intro n hn
  refine (hwf.2 n ?_).1
  rcases List.mem_cons.mp hn with rfl | hn
  · exact ⟨0, rfl⟩
  · obtain ⟨k, hk⟩ := Walk_reach h head xs _ hw n hn
    exact ⟨k + 1, by rw [Function.iterate_succ_apply]; exact hk⟩

theorem IsList_visits (h : Heap) (head : Nat) (xs : List Nat) (hl : IsList h head xs) :
    Visits h head xs := by
  have hw := Seg_walk h head xs head hl.1 (List.nodup_cons.mp hl.2).1
  exact fun fuel hf => (forEachFrom_eq_some h head fuel _ _).mpr ⟨hw, hf⟩

theorem IsList_wellFormed (h : Heap) (head : Nat) (xs : List Nat) (hl : IsList h head xs) :
    WellFormed h head := by
  have hw := Seg_walk h head xs head hl.1 (List.nodup_cons.mp hl.2).1
  refine ⟨⟨xs.length, xs, IsList_visits h head xs hl _ (Nat.le_refl _)⟩, ?_⟩
  have hreach : ∀ k, h.next^[k] head ∈ head :: xs := by
    intro k
    induction k with
    | zero => simp
    | succ k ih =>
      rw [Function.iterate_succ_apply']
      rcases List.mem_cons.mp ih with e | hm
      · rw [e]; exact Walk_pos_mem h head _ xs hw
      · exact Walk_next_mem h head xs _ hw _ hm
  rintro n ⟨k, rfl⟩
  have hm := hreach k
  refine ⟨Seg_prev_next h head xs head hl.1 _ hm, Seg_next_prev h head xs head hl.1 _ ?_⟩
  simp only [List.mem_cons, List.mem_append, List.mem_singleton, List.not_mem_nil,
    or_false] at hm ⊢
  tauto

theorem IsList_init (h : Heap) (head : Nat) : IsList (usg_init_list_head h head) head [] := by
  refine ⟨⟨?_, ?_⟩, by simp⟩ <;> simp [usg_init_list_head, Heap.setNext, Heap.setPrev]

theorem IsList_empty (h : Heap) (head : Nat) (xs : List Nat) (hl : IsList h head xs) :
    usg_list_empty h head = true ↔ xs = [] := by
  obtain ⟨hs, hnd⟩ := hl
  cases xs with
  | nil => simp [usg_list_empty, show h.next head = head from hs.1]
  | cons x xs =>
    have hx : h.next head = x := hs.1
    have : x ≠ head := by
      intro e
      simp [e] at hnd
    simp [usg_list_empty, hx, this]

theorem add_next (h : Heap) (new prev next q : Nat) :
    (__usg_list_add h new prev next).next q =
      if q = prev then new else if q = new then next else h.next q := rfl

theorem add_prev (h : Heap) (new prev next q : Nat) :
    (__usg_list_add h new prev next).prev q =
      if q = new then prev else if q = next then new else h.prev q := rfl

theorem del_next (h : Heap) (e q : Nat) :
    (usg_list_del h e).next q = if q = h.prev e then h.next e else h.next q := by
  simp only [usg_list_del, Heap.setNext, Heap.setPrev]
  split_ifs <;> rfl

theorem del_prev (h : Heap) (e q : Nat) :
    (usg_list_del h e).prev q = if q = h.next e then h.prev e else h.prev q := rfl


theorem IsList_add (h : Heap) (head new : Nat) (xs : List Nat) (hl : IsList h head xs)
    (hnew : new ∉ head :: xs) : IsList (usg_list_add h new head) head (new :: xs) := by
  obtain ⟨hs, hnd⟩ := hl
  have hnh : new ≠ head := fun e => hnew (by simp [e])
  have hnx : new ∉ xs := fun e => hnew (List.mem_cons_of_mem _ e)
  have hhx : head ∉ xs := (List.nodup_cons.mp hnd).1
  refine ⟨?_, List.nodup_cons.mpr
    ⟨?_, List.nodup_cons.mpr ⟨hnx, (List.nodup_cons.mp hnd).2⟩⟩⟩
  · unfold usg_list_add
    refine ⟨by simp [add_next], by simp [add_prev], ?_⟩
    cases xs with
    | nil =>
      have e : h.next head = head := hs.1
      exact ⟨by simp [add_next, hnh, e], by simp [add_prev, hnh.symm, e]⟩
    | cons x rest =>
      obtain ⟨e, _, hrest⟩ := hs
      have hxn : x ≠ new := fun c => hnx (by simp [c])
      have hxh : x ≠ head := fun c => hhx (by simp [c])
      have hnd2 := (List.nodup_cons.mp hnd).2
      refine ⟨by simp [add_next, hnh, e], by simp [add_prev, hxn, e],
        Seg_frame h _ head rest x hrest ?_ ?_⟩
      · intro n hn
        have h1 : n ≠ head := fun c => hhx (c ▸ hn)
        have h2 : n ≠ new := fun c => hnx (c ▸ hn)
        simp [add_next, h1, h2]
      · intro n hn
        have h2 : n ≠ new := by
          rintro rfl
          rcases List.mem_append.mp hn with c | c
          · exact hnx (List.mem_cons_of_mem _ c)
          · exact hnh (by simpa using c)
        have h1 : n ≠ x := by
          rintro rfl
          rcases List.mem_append.mp hn with c | c
          · exact (List.nodup_cons.mp hnd2).1 c
          · exact hxh (by simpa using c)
        simp [add_prev, h1, h2, e]
  · simp only [List.mem_cons, not_or]
    exact ⟨fun c => hnh c.symm, hhx⟩

theorem IsList_add_tail (h : Heap) (head new : Nat) (xs : List Nat) (hl : IsList h head xs)
    (hnew : new ∉ head :: xs) : IsList (usg_list_add_tail h new head) head (xs ++ [new]) := by
  obtain ⟨hs, hnd⟩ := hl
  have hnh : new ≠ head := fun e => hnew (by simp [e])
  have hnx : new ∉ xs := fun e => hnew (List.mem_cons_of_mem _ e)
  have hhx : head ∉ xs := (List.nodup_cons.mp hnd).1
  have hnd2 := (List.nodup_cons.mp hnd).2
  refine ⟨?_, ?_⟩
  · unfold usg_list_add_tail
    rcases List.eq_nil_or_concat xs with rfl | ⟨ys, l, hxs⟩
    · have e : h.prev head = head := hs.2
      exact ⟨by simp [add_next, e], by simp [add_prev, e],
        by simp [add_next, hnh, e], by simp [add_prev, hnh.symm]⟩
    · rw [List.concat_eq_append] at hxs
      subst hxs
      have hs2 := (Seg_append h l head [] ys head).mp hs
      obtain ⟨hys, _, e⟩ := hs2
      have hln : l ≠ new := fun c => hnx (by simp [c])
      have hlh : l ≠ head := fun c => hhx (by simp [c])
      rw [List.append_assoc]
      refine (Seg_append _ l head [new] ys head).mpr ⟨Seg_frame h _ l ys head hys ?_ ?_,
        by simp [add_next, e], by simp [add_prev, e],
        by simp [add_next, hln.symm, e], by simp [add_prev, hnh.symm]⟩
      · intro n hn
        have h1 : n ≠ l := by
          rintro rfl
          rcases List.mem_cons.mp hn with c | c
          · exact hlh c
          · exact (List.nodup_append.mp hnd2).2.2 c (by simp)
        have h2 : n ≠ new := by
          rintro rfl
          rcases List.mem_cons.mp hn with c | c
          · exact hnh c
          · exact hnx (by simp [c])
        simp [add_next, e, h1, h2]
      · intro n hn
        have h1 : n ≠ head := by
          rintro rfl
          exact hhx hn
        have h2 : n ≠ new := by
          rintro rfl
          exact hnx hn
        simp [add_prev, h1, h2]
  · rw [← List.cons_append]
    refine List.nodup_append.mpr ⟨hnd, by simp, ?_⟩
    intro a ha hb
    obtain rfl : a = new := by simpa using hb
    exact hnew ha


theorem Seg_del (h : Heap) (e q : Nat) (r : List Nat) (hr : Seg h e r q) :
    ∀ l p, Seg h p l e → (p :: (l ++ e :: r)).Nodup → q ∉ l ++ e :: r →
      Seg (usg_list_del h e) p (l ++ r) q := by
  intro l
  induction l with
  | nil =>
    rintro p ⟨_, hp⟩ hnd hq
    simp only [List.nil_append] at hnd hq ⊢
    cases r with
    | nil =>
      have hb : h.next e = q := hr.1
      exact ⟨by simp [del_next, hp, hb], by simp [del_prev, hp, hb]⟩
    | cons y r =>
      obtain ⟨hb, _, hrest⟩ := hr
      refine ⟨by simp [del_next, hp, hb], by simp [del_prev, hp, hb],
        Seg_frame h _ q r y hrest ?_ ?_⟩
      · intro n hn
        have h1 : n ≠ p := by
          rintro rfl
          exact (List.nodup_cons.mp hnd).1 (List.mem_cons_of_mem _ hn)
        simp [del_next, hp, h1]
      · intro n hn
        have h1 : n ≠ y := by
          rintro rfl
          rcases List.mem_append.mp hn with c | c
          · exact (List.nodup_cons.mp (List.nodup_cons.mp (List.nodup_cons.mp hnd).2).2).1 c
          · exact hq (by simp [List.mem_singleton.mp c])
        simp [del_prev, hb, h1]
  | cons x l ih =>
    rintro p ⟨h1, h2, h3⟩ hnd hq
    have hnd2 := (List.nodup_cons.mp hnd).2
    have hpa : p ≠ h.prev e := by
      intro c
      have := Seg_prev_last h e l x h3
      rw [← c] at this
      exact (List.nodup_cons.mp hnd).1 (by
        simp only [List.cons_append, List.mem_cons, List.mem_append] at this ⊢
        tauto)
    have hxb : x ≠ h.next e := by
      intro c
      have := Seg_next_first h e q r hr
      rw [← c] at this
      rcases List.mem_append.mp this with m | m
      · exact (List.nodup_cons.mp hnd2).1 (by simp [m])
      · exact hq (by simp [List.mem_singleton.mp m])
    refine ⟨by simp [del_next, hpa, h1], by simp [del_prev, hxb, h2], ih x h3 hnd2 ?_⟩
    intro c
    exact hq (List.mem_cons_of_mem _ c)

theorem IsList_del (h : Heap) (head e : Nat) (xs : List Nat) (hl : IsList h head xs)
    (he : e ∈ xs) :
    IsList (usg_list_del h e) head (xs.filter (fun n => n != e)) ∧
      (xs.filter (fun n => n != e)).length + 1 = xs.length := by
  obtain ⟨hs, hnd⟩ := hl
  obtain ⟨l, r, rfl⟩ := List.append_of_mem he
  obtain ⟨hsl, hsr⟩ := (Seg_append h e head r l head).mp hs
  have hnd2 := (List.nodup_cons.mp hnd).2
  have hel : e ∉ l := fun c => (List.nodup_append.mp hnd2).2.2 c (by simp)
  have her : e ∉ r := (List.nodup_cons.mp (List.nodup_append.mp hnd2).2.1).1
  have hfl : l.filter (fun n => n != e) = l :=
    List.filter_eq_self.mpr (fun a ha => by
      have : a ≠ e := fun c => hel (c ▸ ha)
      simpa using this)
  have hfr : r.filter (fun n => n != e) = r :=
    List.filter_eq_self.mpr (fun a ha => by
      have : a ≠ e := fun c => her (c ▸ ha)
      simpa using this)
  have hf : (l ++ e :: r).filter (fun n => n != e) = l ++ r := by
    rw [List.filter_append, List.filter_cons, hfl, hfr]
    simp
  rw [hf]
  refine ⟨⟨Seg_del h e head r hsr l head hsl hnd (List.nodup_cons.mp hnd).1, ?_⟩,
    by simp; omega⟩
  have hsub : (head :: (l ++ r)).Sublist (head :: (l ++ e :: r)) :=
    List.Sublist.cons₂ _ (List.Sublist.append (List.Sublist.refl l) (List.sublist_cons_self e r))
  exact hnd.sublist hsub


/-- C8: the intrusive list refines a sequence. On well-formed circular lists the sequence
visited by `usg_list_for_each_entry` exists and is unique; `usg_init_list_head` yields the
empty sequence; `usg_list_add_tail` appends the new node and `usg_list_add` puts it in
front, for a new node that is not in the list; `usg_list_del` of a member removes that
node only and keeps the order of the others; `usg_list_empty` is true exactly when the
sequence is empty; and every operation yields a well-formed list again. When the nodes
reachable from the head lie below an address bound, the link condition `n.next.prev = n`
and `n.prev.next = n` on them is all of well-formedness: circularity follows. -/
theorem usg_list_refines_sequence :
    (∀ h head, WellFormed h head →
      ∃ xs, Visits h head xs ∧ ∀ ys, Visits h head ys → ys = xs) ∧
    (∀ h head, WellFormed (usg_init_list_head h head) head ∧
      Visits (usg_init_list_head h head) head []) ∧
    (∀ h head xs new, WellFormed h head → Visits h head xs → new ∉ head :: xs →
      WellFormed (usg_list_add_tail h new head) head ∧
      Visits (usg_list_add_tail h new head) head (xs ++ [new])) ∧
    (∀ h head xs new, WellFormed h head → Visits h head xs → new ∉ head :: xs →
      WellFormed (usg_list_add h new head) head ∧
      Visits (usg_list_add h new head) head (new :: xs)) ∧
    (∀ h head xs e, WellFormed h head → Visits h head xs → e ∈ xs →
      WellFormed (usg_list_del h e) head ∧
      Visits (usg_list_del h e) head (xs.filter (fun n => n != e)) ∧
      (xs.filter (fun n => n != e)).length + 1 = xs.length) ∧
    (∀ h head xs, WellFormed h head → Visits h head xs →
      (usg_list_empty h head = true ↔ xs = [])) ∧
    (∀ h head N, (∀ n, Reachable h head n → n < N) →
      (∀ n, Reachable h head n → h.prev (h.next n) = n ∧ h.next (h.prev n) = n) →
      WellFormed h head) := by
  refine ⟨?_, ?_, ?_, ?_, ?_, ?_, ?_⟩
  · rintro h head ⟨⟨fuel, xs, hx⟩, hwf⟩
    have hw := ((forEachFrom_eq_some h head fuel _ _).mp hx).1
    have hv : Visits h head xs := fun f hf => (forEachFrom_eq_some h head f _ _).mpr ⟨hw, hf⟩
    exact ⟨xs, hv, fun ys hy => Visits_unique h head xs ys hv hy⟩
  · intro h head
    have := IsList_init h head
    exact ⟨IsList_wellFormed _ _ _ this, IsList_visits _ _ _ this⟩
  · intro h head xs new hwf hv hnew
    have := IsList_add_tail h head new xs (IsList_of_wellFormed h head xs hwf hv) hnew
    exact ⟨IsList_wellFormed _ _ _ this, IsList_visits _ _ _ this⟩
  · intro h head xs new hwf hv hnew
    have := IsList_add h head new xs (IsList_of_wellFormed h head xs hwf hv) hnew
    exact ⟨IsList_wellFormed _ _ _ this, IsList_visits _ _ _ this⟩
  · intro h head xs e hwf hv he
    have := IsList_del h head e xs (IsList_of_wellFormed h head xs hwf hv) he
    exact ⟨IsList_wellFormed _ _ _ this.1, IsList_visits _ _ _ this.1, this.2⟩
  · intro h head xs hwf hv
    exact IsList_empty h head xs (IsList_of_wellFormed h head xs hwf hv)
  · intro h head N hb hl
    exact ⟨Circular_of_bounded h head N hb (fun n hn => (hl n hn).1), hl⟩

theorem usg_list_refines_sequence_witness :
    Visits (usg_list_add_tail (usg_init_list_head Heap.zero 0) 1 0) 0 [1] ∧
    Visits (usg_list_add (usg_list_add_tail (usg_init_list_head Heap.zero 0) 1 0) 2 0) 0
      [2, 1] ∧
    Visits (usg_list_del
      (usg_list_add (usg_list_add_tail (usg_init_list_head Heap.zero 0) 1 0) 2 0) 1) 0 [2] ∧
    (usg_list_empty (usg_list_del
      (usg_list_add (usg_list_add_tail (usg_init_list_head Heap.zero 0) 1 0) 2 0) 1) 0 = true
      ↔ [2] = []) := by
  have h0 := usg_list_refines_sequence.2.1 Heap.zero 0
  have h1 := usg_list_refines_sequence.2.2.1 _ 0 [] 1 h0.1 h0.2 (by decide)
  have h2 := usg_list_refines_sequence.2.2.2.1 _ 0 [1] 2 h1.1 h1.2 (by decide)
  have h3 := usg_list_refines_sequence.2.2.2.2.1 _ 0 [2, 1] 1 h2.1 h2.2 (by decide)
  exact ⟨h1.2, h2.2, h3.2.1, usg_list_refines_sequence.2.2.2.2.2.1 _ 0 [2] h3.1 h3.2.1⟩

end Usg
